import Mathlib

/-!
Verification of the ACL UE4 curve-compression codec adapter
(`AnimCurveCompressionCodec_ACL.cpp`).

Floating-point scalars of the C++ source are modelled as exact rationals
(`ℚ`): every claim under scrutiny is a structural or conditional property
of the arithmetic expressions, not a rounding property.  The external ACL
codec (`compressed_tracks`, `decompression_context`) is modelled
abstractly: a compressed blob carries a lightweight-validity flag, a track
count, and a per-track evaluation function; the adapter's own control flow
around it is embedded faithfully.
-/

namespace ACLCodec

/-- UE4 `FMath::Clamp`: `X < Min ? Min : X < Max ? X : Max`. -/
def fclamp (x lo hi : ℚ) : ℚ :=
  if x < lo then lo else if x < hi then x else hi

/-- Line 159 of `AnimCurveCompressionCodec_ACL.cpp`:
`Precision = MaxPositionDelta > 0.0f ? (MorphTargetPositionPrecision / MaxPositionDelta) : CurvePrecision`. -/
def derivePrecision (maxPositionDelta curvePrecision morphTargetPositionPrecision : ℚ) : ℚ :=
  if 0 < maxPositionDelta then morphTargetPositionPrecision / maxPositionDelta
  else curvePrecision

/-- Line 120: `bIsStaticPose = NumSamples <= 1 || SequenceLength < 0.0001f`. -/
def bIsStaticPose (numSamples : ℕ) (sequenceLength : ℚ) : Bool :=
  decide (numSamples ≤ 1) || decide (sequenceLength < 1 / 10000)

/-- Line 121: `SampleRate = bIsStaticPose ? 30.0f : (float(NumSamples - 1) / SequenceLength)`. -/
def sampleRate (numSamples : ℕ) (sequenceLength : ℚ) : ℚ :=
  if bIsStaticPose numSamples sequenceLength then 30
  else ((numSamples : ℚ) - 1) / sequenceLength

/-- Line 122: `InvSampleRate = 1.0f / SampleRate`. -/
def invSampleRate (numSamples : ℕ) (sequenceLength : ℚ) : ℚ :=
  1 / sampleRate numSamples sequenceLength

/-- Lines 166-173: resampling one curve onto the uniform grid.  The curve is
its UE4 `FRichCurve::Eval` function, modelled as an arbitrary `ℚ → ℚ`.
Sample `i` is the curve evaluated at
`FMath::Clamp(SampleIndex * InvSampleRate, 0.0f, SequenceLength)`. -/
def resample (curve : ℚ → ℚ) (numSamples : ℕ) (sequenceLength : ℚ) : List ℚ :=
  (List.range numSamples).map fun (i : ℕ) =>
    curve (fclamp ((i : ℚ) * invSampleRate numSamples sequenceLength) 0 sequenceLength)

/-- `acl::track_desc_scalarf` fields set at lines 161-164. -/
structure TrackDesc where
  output_index : ℕ
  precision : ℚ
  constant_threshold : ℚ
deriving DecidableEq, Repr

/-- `acl::track_float1f`: descriptor, uniform sample rate, sample list. -/
structure Track where
  desc : TrackDesc
  sample_rate : ℚ
  samples : List ℚ

/-- Lines 127-176 of `Compress`: build one `acl::track_float1f` per input
curve, in input order.  `curves` are the `FRichCurve::Eval` functions of
`AnimSeq.RawCurveData.FloatCurves` and `deltas` the parallel result of
`GetMorphTargetMaxPositionDeltas`. -/
def buildTracks (curves : List (ℚ → ℚ)) (deltas : List ℚ)
    (curvePrecision morphTargetPositionPrecision : ℚ)
    (numSamples : ℕ) (sequenceLength : ℚ) : List Track :=
  (List.range curves.length).map fun i =>
    let p := derivePrecision (deltas.getD i 0) curvePrecision morphTargetPositionPrecision
    { desc := { output_index := i, precision := p, constant_threshold := p }
      sample_rate := sampleRate numSamples sequenceLength
      samples := resample (curves.getD i fun _ => 0) numSamples sequenceLength }

/-- `FAnimCurveCompressionResult`: the output byte buffer plus the codec
reference set on success (the codec object is abstracted to a numeric id). -/
structure FAnimCurveCompressionResult where
  CompressedBytes : List ℕ
  Codec : Option ℕ
deriving DecidableEq, Repr

/-- `acl::ErrorResult` as used by the adapter: empty on success, otherwise a
message. -/
inductive ErrorResult where
  | empty : ErrorResult
  | failed (msg : String) : ErrorResult
deriving DecidableEq, Repr

/-- `acl::ErrorResult::any()`. -/
def ErrorResult.any : ErrorResult → Bool
  | .empty => false
  | .failed _ => true

/-- Lines 182-210 of `Compress`: the tail of the driver after
`acl::compress_track_list` returns.  The external compressor's outcome is a
parameter: `compressionResult` is its `ErrorResult` and `compressedBytes`
the byte image of the `compressed_tracks` buffer it produced.  On any error
the function returns `false` having never touched `OutResult` (lines
184-188); otherwise it copies the bytes and sets the codec reference (lines
194-198) and returns `true`. -/
def compressFinish (compressionResult : ErrorResult) (compressedBytes : List ℕ)
    (codecSelf : ℕ) (outResult : FAnimCurveCompressionResult) :
    Bool × FAnimCurveCompressionResult :=
  if compressionResult.any then (false, outResult)
  else (true, { CompressedBytes := compressedBytes, Codec := some codecSelf })

/-- `FSmartName`: only the stable UID matters to the adapter's lookups. -/
structure FSmartName where
  UID : ℕ
deriving DecidableEq, Repr

/-- Abstract model of `acl::compressed_tracks` together with a seeked
`acl::decompression_context`: a lightweight-validity flag
(`is_valid(false)`), the number of tracks in the blob, and the value each
track decompresses to at a given time (`seek` + `decompress_track`). -/
structure CompressedTracks where
  is_valid_light : Bool
  num_tracks : ℕ
  track_value : ℕ → ℚ → ℚ

/-- `FBlendedCurve`: a sparse curve buffer keyed by UID, with an enabled
mask and current values. -/
structure FBlendedCurve where
  IsEnabled : ℕ → Bool
  CurveValue : ℕ → ℚ

/-- `FBlendedCurve::Set`: overwrite the value stored for one UID. -/
def FBlendedCurve.set (curves : FBlendedCurve) (uid : ℕ) (v : ℚ) : FBlendedCurve :=
  { curves with CurveValue := fun u => if u = uid then v else curves.CurveValue u }

/-- `UE4CurveWriter::write_float1` (lines 230-237): look up the track's
curve name and write the value only when that UID is enabled in the
buffer. -/
def write_float1 (compressedCurveNames : List FSmartName) (curves : FBlendedCurve)
    (trackIndex : ℕ) (value : ℚ) : FBlendedCurve :=
  let curveName := compressedCurveNames.getD trackIndex ⟨0⟩
  if curves.IsEnabled curveName.UID then curves.set curveName.UID value else curves

/-- `UAnimCurveCompressionCodec_ACL::DecompressCurves` (lines 240-259):
early-out on an empty name list; `check` the blob's lightweight validity
(a failed check halts before any write, leaving the buffer unchanged);
then `decompress_tracks` calls `write_float1` once per track index. -/
def decompressCurves (compressedTracks : CompressedTracks)
    (compressedCurveNames : List FSmartName) (curves : FBlendedCurve)
    (currentTime : ℚ) : FBlendedCurve :=
  if compressedCurveNames.length = 0 then curves
  else if compressedTracks.is_valid_light = false then curves
  else
    (List.range compressedTracks.num_tracks).foldl
      (fun acc i => write_float1 compressedCurveNames acc i
        (compressedTracks.track_value i currentTime))
      curves

/-- Lines 293-301 of `DecompressCurve`: the linear scan that finds the first
track whose curve UID matches, `-1` (here `none`) when absent.  `base` is
the index of the head of the remaining list. -/
def findTrackIndexFrom : List FSmartName → ℕ → ℕ → Option ℕ
  | [], _, _ => none
  | n :: rest, uid, base =>
      if n.UID = uid then some base else findTrackIndexFrom rest uid (base + 1)

/-- `UAnimCurveCompressionCodec_ACL::DecompressCurve` (lines 276-312):
return 0 on an empty name list; `check` lightweight validity (a failed
check is a fatal assertion, modelled as `Except.error`); seek, scan for the
UID, return 0 when absent, otherwise the decompressed track value. -/
def decompressCurve (compressedTracks : CompressedTracks)
    (compressedCurveNames : List FSmartName) (curveUID : ℕ)
    (currentTime : ℚ) : Except String ℚ :=
  if compressedCurveNames.length = 0 then .ok 0
  else if compressedTracks.is_valid_light = false then
    .error "compressed_tracks failed lightweight validation"
  else
    match findTrackIndexFrom compressedCurveNames curveUID 0 with
    | none => .ok 0
    | some trackIndex => .ok (compressedTracks.track_value trackIndex currentTime)

/-- Observable events of a decompression entry point, in program order. -/
inductive DecompEvent where
  | validate : DecompEvent
  | seek : DecompEvent
  | readTrack (i : ℕ) : DecompEvent
deriving DecidableEq, Repr

/-- Event trace of `DecompressCurves`: nothing on the empty-name early-out;
otherwise the `check(is_valid(false))` validation, then `seek`, then (when
the check passed) one read per track. -/
def decompressCurvesTrace (compressedTracks : CompressedTracks)
    (compressedCurveNames : List FSmartName) : List DecompEvent :=
  if compressedCurveNames.length = 0 then []
  else if compressedTracks.is_valid_light = false then [.validate]
  else .validate :: .seek ::
    (List.range compressedTracks.num_tracks).map .readTrack

/-- Event trace of `DecompressCurve`: as above, with at most one track read
(the first UID match, when any). -/
def decompressCurveTrace (compressedTracks : CompressedTracks)
    (compressedCurveNames : List FSmartName) (curveUID : ℕ) : List DecompEvent :=
  if compressedCurveNames.length = 0 then []
  else if compressedTracks.is_valid_light = false then [.validate]
  else .validate :: .seek ::
    (match findTrackIndexFrom compressedCurveNames curveUID 0 with
     | none => []
     | some i => [.readTrack i])

/-- A trace performs validation before anything else: every non-`validate`
event is preceded by a `validate` event. -/
def validatedFirst (tr : List DecompEvent) : Prop :=
  ∀ (i : ℕ) (e : DecompEvent), tr[i]? = some e → e ≠ DecompEvent.validate →
    ∃ j : ℕ, j < i ∧ tr[j]? = some DecompEvent.validate

end ACLCodec

namespace ACLCodec

/-- C1: the derived precision is `morph_precision / delta` for positive delta
and `curve_precision` at delta zero; division only ever happens under the
positivity guard, so no division by zero occurs. -/
theorem claim_C1 (delta curvePrecision morphPrecision : ℚ) :
    (0 < delta →
      derivePrecision delta curvePrecision morphPrecision = morphPrecision / delta) ∧
    (delta = 0 →
      derivePrecision delta curvePrecision morphPrecision = curvePrecision) := by
  constructor
  · intro h
    simp [derivePrecision, h]
  · intro h
    simp [derivePrecision, h]

theorem claim_C1_witness :
    derivePrecision 5 (1 / 1000) (1 / 100) = (1 / 100 : ℚ) / 5 ∧
    derivePrecision 0 (1 / 1000) (1 / 100) = (1 / 1000 : ℚ) :=
  ⟨(claim_C1 5 (1 / 1000) (1 / 100)).1 (by norm_num),
   (claim_C1 0 (1 / 1000) (1 / 100)).2 rfl⟩

/-- C3: the sample rate is 30 when `num_samples ≤ 1` or
`sequence_length < 1e-4`, and `(num_samples - 1) / sequence_length`
otherwise. -/
theorem claim_C3 (numSamples : ℕ) (sequenceLength : ℚ) :
    (numSamples ≤ 1 ∨ sequenceLength < 1 / 10000 →
      sampleRate numSamples sequenceLength = 30) ∧
    (1 < numSamples → 1 / 10000 ≤ sequenceLength →
      sampleRate numSamples sequenceLength =
        ((numSamples : ℚ) - 1) / sequenceLength) := by
  constructor
  · intro h
    have hb : bIsStaticPose numSamples sequenceLength = true := by
      simp only [bIsStaticPose, Bool.or_eq_true, decide_eq_true_eq]
      exact h
    rw [sampleRate, if_pos hb]
  · intro h1 h2
    have hn : ¬ numSamples ≤ 1 := by omega
    have hs : ¬ sequenceLength < 1 / 10000 := not_lt.mpr h2
    have hb : bIsStaticPose numSamples sequenceLength = false := by
      simp only [bIsStaticPose, Bool.or_eq_false_iff, decide_eq_false_iff_not]
      exact ⟨hn, hs⟩
    rw [sampleRate, if_neg (by simp [hb])]

theorem claim_C3_witness :
    sampleRate 1 10 = 30 ∧ sampleRate 31 (1 / 20000) = 30 ∧
    sampleRate 31 (3 / 2) = ((31 : ℚ) - 1) / (3 / 2) :=
  ⟨(claim_C3 1 10).1 (Or.inl (by norm_num)),
   (claim_C3 31 (1 / 20000)).1 (Or.inr (by norm_num)),
   (claim_C3 31 (3 / 2)).2 (by norm_num) (by norm_num)⟩

/-- C9: for a fixed positive configured morph precision, the derived
precision is strictly decreasing on positive deltas, and at delta zero it
equals the configured curve precision exactly. -/
theorem claim_C9 (curvePrecision morphPrecision d1 d2 : ℚ)
    (hm : 0 < morphPrecision) (h1 : 0 < d1) (h12 : d1 < d2) :
    derivePrecision d2 curvePrecision morphPrecision <
      derivePrecision d1 curvePrecision morphPrecision ∧
    derivePrecision 0 curvePrecision morphPrecision = curvePrecision := by
  have h2 : 0 < d2 := h1.trans h12
  constructor
  · rw [derivePrecision, if_pos h2, derivePrecision, if_pos h1]
    exact div_lt_div_of_pos_left hm h1 h12
  · simp [derivePrecision]

theorem claim_C9_witness :
    derivePrecision 4 (1 / 1000) (1 / 100) <
      derivePrecision 2 (1 / 1000) (1 / 100) ∧
    derivePrecision 0 (1 / 1000) (1 / 100) = (1 / 1000 : ℚ) :=
  claim_C9 (1 / 1000) (1 / 100) 2 4 (by norm_num) (by norm_num) (by norm_num)

lemma fclamp_zero (hi : ℚ) (h : 0 ≤ hi) : fclamp 0 0 hi = 0 := by
  rw [fclamp]
  simp only [lt_irrefl, if_false]
  split_ifs with h2
  · rfl
  · exact le_antisymm (not_lt.mp h2) h

/-- C2: the resampler emits exactly `num_samples` values in index order,
sample `i` being the curve evaluated at
`clamp(i / sample_rate, 0, sequence_length)`; with a single sample the
evaluation time is 0. -/
theorem claim_C2 (curve : ℚ → ℚ) (numSamples : ℕ) (sequenceLength : ℚ)
    (hL : 0 ≤ sequenceLength) :
    (resample curve numSamples sequenceLength).length = numSamples ∧
    (∀ i < numSamples,
      (resample curve numSamples sequenceLength)[i]? =
        some (curve (fclamp ((i : ℚ) / sampleRate numSamples sequenceLength)
          0 sequenceLength))) ∧
    (numSamples = 1 → resample curve numSamples sequenceLength = [curve 0]) := by
  refine ⟨by rw [resample, List.length_map, List.length_range], ?_, ?_⟩
  · intro i hi
    have hmul : (i : ℚ) * invSampleRate numSamples sequenceLength
        = (i : ℚ) / sampleRate numSamples sequenceLength := by
      rw [invSampleRate, mul_one_div]
    rw [resample, List.getElem?_map, List.getElem?_range hi, Option.map_some',
      hmul]
  · intro h1
    subst h1
    have hr : List.range 1 = [0] := rfl
    rw [resample, hr, List.map_cons, List.map_nil, Nat.cast_zero,
      zero_mul, fclamp_zero sequenceLength hL]

theorem claim_C2_witness :
    (0 : ℚ) ≤ 10 ∧
    (resample (fun t => t + 1) 1 10).length = 1 ∧
    resample (fun t => t + 1) 1 10 = [(fun t : ℚ => t + 1) 0] :=
  ⟨by norm_num,
   (claim_C2 (fun t => t + 1) 1 10 (by norm_num)).1,
   (claim_C2 (fun t => t + 1) 1 10 (by norm_num)).2.2 rfl⟩

/-- C4: every track built by the compression driver carries its input
position as output slot index, and its precision and constant threshold are
equal (both the derived precision). -/
theorem claim_C4 (curves : List (ℚ → ℚ)) (deltas : List ℚ)
    (curvePrecision morphPrecision : ℚ) (numSamples : ℕ) (sequenceLength : ℚ) :
    ∀ (i : ℕ) (tr : Track),
      (buildTracks curves deltas curvePrecision morphPrecision
        numSamples sequenceLength)[i]? = some tr →
      tr.desc.output_index = i ∧ tr.desc.precision = tr.desc.constant_threshold := by
  intro i tr htr
  rw [buildTracks, List.getElem?_map] at htr
  rcases Nat.lt_or_ge i curves.length with hi | hi
  · rw [List.getElem?_range hi, Option.map_some'] at htr
    cases htr
    exact ⟨rfl, rfl⟩
  · rw [List.getElem?_eq_none (by rw [List.length_range]; exact hi)] at htr
    cases htr

theorem claim_C4_witness :
    (buildTracks [fun _ => (1 : ℚ)] [0] (1 / 1000) (1 / 100) 2 1)[0]? =
      some { desc := { output_index := 0, precision := 1 / 1000,
                       constant_threshold := 1 / 1000 },
             sample_rate := 1, samples := [1, 1] } ∧
    ((0 : ℕ) = 0 ∧ (1 / 1000 : ℚ) = 1 / 1000) := by
  have h : (buildTracks [fun _ => (1 : ℚ)] [0] (1 / 1000) (1 / 100) 2 1)[0]? =
      some { desc := { output_index := 0, precision := 1 / 1000,
                       constant_threshold := 1 / 1000 },
             sample_rate := 1, samples := [1, 1] } := by
    norm_num [buildTracks, derivePrecision, resample, invSampleRate, sampleRate,
      bIsStaticPose, fclamp, List.range_succ]
  exact ⟨h, claim_C4 [fun _ => (1 : ℚ)] [0] (1 / 1000) (1 / 100) 2 1 0 _ h⟩

/-- C6: whenever the external compressor reports any error, `Compress`
returns failure and the output result is returned exactly as it was
passed in — no partial blob, no codec reference. -/
theorem claim_C6 (msg : String) (compressedBytes : List ℕ) (codecSelf : ℕ)
    (outResult : FAnimCurveCompressionResult) :
    compressFinish (.failed msg) compressedBytes codecSelf outResult =
      (false, outResult) := rfl

lemma findTrackIndexFrom_eq_none (names : List FSmartName) (uid : ℕ)
    (h : ∀ n ∈ names, n.UID ≠ uid) :
    ∀ base, findTrackIndexFrom names uid base = none := by
  induction names with
  | nil => intro base; rfl
  | cons n rest ih =>
    intro base
    rw [findTrackIndexFrom, if_neg (h n (List.mem_cons_self n rest))]
    exact ih (fun m hm => h m (List.mem_cons_of_mem n hm)) (base + 1)

/-- C5: the single-curve entry point returns exactly 0 (and no error)
whenever the track-identity list is empty, or the blob passes validation
and the requested UID is absent from the list. -/
theorem claim_C5 (blob : CompressedTracks) (names : List FSmartName)
    (uid : ℕ) (t : ℚ)
    (h : names = [] ∨
      (blob.is_valid_light = true ∧ ∀ n ∈ names, n.UID ≠ uid)) :
    decompressCurve blob names uid t = .ok 0 := by
  rcases h with h | ⟨hv, h⟩
  · subst h; rfl
  · rw [decompressCurve]
    by_cases hlen : names.length = 0
    · rw [if_pos hlen]
    · rw [if_neg hlen, if_neg (by simp [hv]),
        findTrackIndexFrom_eq_none names uid h 0]

theorem claim_C5_witness :
    decompressCurve ⟨true, 1, fun _ _ => 5⟩ [⟨3⟩] 7 0 = .ok 0 :=
  claim_C5 ⟨true, 1, fun _ _ => 5⟩ [⟨3⟩] 7 0 (Or.inr ⟨rfl, by decide⟩)

lemma foldl_write_preserve (names : List FSmartName) (v : ℕ → ℚ) (uid : ℕ) :
    ∀ (L : List ℕ) (curves : FBlendedCurve),
      (curves.IsEnabled uid = false ∨ ∀ n ∈ names, n.UID ≠ uid) →
      (∀ i ∈ L, i < names.length) →
      ((L.foldl (fun acc i => write_float1 names acc i (v i)) curves).CurveValue uid
          = curves.CurveValue uid ∧
        (L.foldl (fun acc i => write_float1 names acc i (v i)) curves).IsEnabled
          = curves.IsEnabled) := by
  intro L
  induction L with
  | nil => intro curves _ _; exact ⟨rfl, rfl⟩
  | cons a L ih =>
    intro curves h hb
    have hname : (curves.IsEnabled (names.getD a ⟨0⟩).UID = true →
        (names.getD a ⟨0⟩).UID ≠ uid) := by
      intro hen
      rcases h with h | h
      · intro heq
        rw [heq] at hen
        rw [hen] at h
        exact Bool.true_eq_false.mp h
      · have ha : a < names.length := hb a (List.mem_cons_self a L)
        have hmem : names.getD a ⟨0⟩ ∈ names := by
          rw [List.getD_eq_getElem names ⟨0⟩ ha]
          exact List.getElem_mem ha
        exact h _ hmem
    have hstep : (write_float1 names curves a (v a)).CurveValue uid
          = curves.CurveValue uid ∧
        (write_float1 names curves a (v a)).IsEnabled = curves.IsEnabled := by
      rw [write_float1]
      by_cases hcond : curves.IsEnabled (names.getD a ⟨0⟩).UID
      · rw [if_pos hcond]
        refine ⟨?_, rfl⟩
        have hne : uid ≠ (names.getD a ⟨0⟩).UID := fun he => hname hcond he.symm
        show (if uid = (names.getD a ⟨0⟩).UID then v a
          else curves.CurveValue uid) = curves.CurveValue uid
        rw [if_neg hne]
      · rw [if_neg hcond]
        exact ⟨rfl, rfl⟩
    have hnext := ih (write_float1 names curves a (v a))
      (by
        rcases h with h | h
        · exact Or.inl (hstep.2 ▸ h)
        · exact Or.inr h)
      (fun i hi => hb i (List.mem_cons_of_mem a hi))
    rw [List.foldl_cons]
    exact ⟨hnext.1.trans hstep.1, hnext.2.trans hstep.2⟩

/-- C7: all-curves decompression writes a buffer entry for a track's UID
only when that UID is enabled; entries whose UID is disabled or absent from
the track-identity list keep their old value. -/
theorem claim_C7 (blob : CompressedTracks) (names : List FSmartName)
    (curves : FBlendedCurve) (t : ℚ) (uid : ℕ)
    (hlen : blob.num_tracks = names.length)
    (h : curves.IsEnabled uid = false ∨ ∀ n ∈ names, n.UID ≠ uid) :
    (decompressCurves blob names curves t).CurveValue uid
      = curves.CurveValue uid := by
  rw [decompressCurves]
  split_ifs with h1 h2
  · rfl
  · rfl
  · exact (foldl_write_preserve names (fun i => blob.track_value i t) uid
      (List.range blob.num_tracks) curves h
      (fun i hi => by
        have := List.mem_range.mp hi
        omega)).1

theorem claim_C7_witness :
    (decompressCurves ⟨true, 1, fun _ _ => 9⟩ [⟨4⟩]
      ⟨fun _ => false, fun _ => 0⟩ 0).CurveValue 4 =
    FBlendedCurve.CurveValue ⟨fun _ => false, fun _ => 0⟩ 4 :=
  claim_C7 ⟨true, 1, fun _ _ => 9⟩ [⟨4⟩] ⟨fun _ => false, fun _ => 0⟩ 0 4
    rfl (Or.inl rfl)

lemma validatedFirst_nil : validatedFirst [] := by
  intro i e h
  simp at h

lemma validatedFirst_validate_cons (rest : List DecompEvent) :
    validatedFirst (DecompEvent.validate :: rest) := by
  intro i e h hne
  cases i with
  | zero =>
    simp only [List.getElem?_cons_zero, Option.some_inj] at h
    exact absurd h.symm hne
  | succ n => exact ⟨0, Nat.succ_pos n, by simp⟩

/-- C8: in both decompression entry points, every cursor seek and every
track read is preceded by the lightweight blob validation. -/
theorem claim_C8 (blob : CompressedTracks) (names : List FSmartName) (uid : ℕ) :
    validatedFirst (decompressCurvesTrace blob names) ∧
    validatedFirst (decompressCurveTrace blob names uid) := by
  constructor
  · rw [decompressCurvesTrace]
    split_ifs
    · exact validatedFirst_nil
    · exact validatedFirst_validate_cons []
    · exact validatedFirst_validate_cons _
  · rw [decompressCurveTrace]
    split_ifs
    · exact validatedFirst_nil
    · exact validatedFirst_validate_cons []
    · exact validatedFirst_validate_cons _

theorem claim_C8_witness :
    validatedFirst (decompressCurvesTrace ⟨true, 2, fun _ _ => 0⟩ [⟨1⟩]) ∧
    validatedFirst (decompressCurveTrace ⟨true, 2, fun _ _ => 0⟩ [⟨1⟩] 1) :=
  claim_C8 ⟨true, 2, fun _ _ => 0⟩ [⟨1⟩] 1

lemma findTrackIndexFrom_first (uid : ℕ) :
    ∀ (names : List FSmartName) (base i : ℕ) (ni : FSmartName),
      names[i]? = some ni → ni.UID = uid →
      (∀ k, k < i → ∀ n, names[k]? = some n → n.UID ≠ uid) →
      findTrackIndexFrom names uid base = some (base + i) := by
  intro names
  induction names with
  | nil =>
    intro base i ni hni
    simp at hni
  | cons n rest ih =>
    intro base i ni hni huid hfirst
    rw [findTrackIndexFrom]
    by_cases hn : n.UID = uid
    · rw [if_pos hn]
      cases i with
      | zero => rfl
      | succ m => exact absurd hn (hfirst 0 (Nat.succ_pos m) n (by simp))
    · rw [if_neg hn]
      cases i with
      | zero =>
        simp only [List.getElem?_cons_zero, Option.some_inj] at hni
        exact absurd (hni ▸ huid) hn
      | succ m =>
        have h1 : rest[m]? = some ni := by simpa using hni
        have h2 : ∀ k, k < m → ∀ nn, rest[k]? = some nn → nn.UID ≠ uid := by
          intro k hk nn hnn
          exact hfirst (k + 1) (by omega) nn (by simpa using hnn)
        rw [ih (base + 1) m ni h1 huid h2]
        congr 1
        omega

/-- C10: when a UID occurs at several indices of the track-identity list,
the single-curve entry point returns the value of the track at the smallest
matching index — the linear scan stops at its first match. -/
theorem claim_C10 (blob : CompressedTracks) (names : List FSmartName)
    (uid : ℕ) (t : ℚ) (i j : ℕ) (ni nj : FSmartName)
    (hv : blob.is_valid_light = true)
    (hij : i < j)
    (hi : names[i]? = some ni) (hiu : ni.UID = uid)
    (hj : names[j]? = some nj) (hju : nj.UID = uid)
    (hfirst : ∀ k, k < i → ∀ n, names[k]? = some n → n.UID ≠ uid) :
    decompressCurve blob names uid t = .ok (blob.track_value i t) := by
  have hilen : i < names.length := by
    by_contra hcon
    rw [List.getElem?_eq_none (Nat.not_lt.mp hcon)] at hi
    cases hi
  have hfind := findTrackIndexFrom_first uid names 0 i ni hi hiu hfirst
  rw [Nat.zero_add] at hfind
  rw [decompressCurve, if_neg (by omega), if_neg (by simp [hv]), hfind]

theorem claim_C10_witness :
    decompressCurve ⟨true, 3, fun k _ => if k = 0 then 10 else 20⟩
      [⟨5⟩, ⟨7⟩, ⟨5⟩] 5 0 = .ok 10 :=
  claim_C10 ⟨true, 3, fun k _ => if k = 0 then 10 else 20⟩
    [⟨5⟩, ⟨7⟩, ⟨5⟩] 5 0 0 2 ⟨5⟩ ⟨5⟩ rfl (by omega) rfl rfl rfl rfl
    (fun k hk _ _ => absurd hk (Nat.not_lt_zero k))

end ACLCodec
